import Mathlib

/-!
Verification of the annembed diffusion-maps core (src/diffmaps.rs,
src/graphlaplace.rs, src/tools/svdapprox.rs) against its specification.

Floating-point (`f32`/`f64`) arithmetic of the source is modelled by exact
real arithmetic; machine integers by `ℕ`.  Matrices are modelled either as
total functions `ℕ → ℕ → ℝ` together with explicit bounds, or as the
structure `Mat` carrying its dimensions.
-/

namespace Annembed

/-! ## Constants (src/graphlaplace.rs) -/

/-- `const FULL_MAT_REPR: usize = 5000` (graphlaplace.rs). -/
def FULL_MAT_REPR : ℕ := 5000

/-- `const FULL_SVD_SIZE_LIMIT: usize = 5000` (graphlaplace.rs). -/
def FULL_SVD_SIZE_LIMIT : ℕ := 5000

/-! ## Range-approximation modes (src/tools/svdapprox.rs) -/

/-- `struct RangePrecision { epsil: f64, step: usize }` (svdapprox.rs). -/
structure RangePrecision where
  epsil : ℝ
  step : ℕ

/-- `struct RangeRank { rank: usize, nbiter: usize }` (svdapprox.rs). -/
structure RangeRank where
  rank : ℕ
  nbiter : ℕ

/-- Modelled from the spec: the constructor `RangeRank::new` is not present in
the provided sources (only the struct declaration and the call site are);
it fills the fields in declaration order, `rank` then `nbiter`. -/
def RangeRank.new (rank nbiter : ℕ) : RangeRank := ⟨rank, nbiter⟩

/-- `enum RangeApproxMode { EPSIL(RangePrecision), RANK(RangeRank) }` (svdapprox.rs). -/
inductive RangeApproxMode where
  | EPSIL (p : RangePrecision)
  | RANK (r : RangeRank)

/-- The range-approximation mode passed by `GraphLaplacian::do_approx_svd`
(graphlaplace.rs line 79): `RangeApproxMode::RANK(RangeRank::new(20, 5))`.
The argument `asked_dim` is the number of components requested of `do_svd`
(checked by `assert!(asked_dim >= 2)` but otherwise unused here). -/
def do_approx_svd_mode (asked_dim : ℕ) : RangeApproxMode :=
  RangeApproxMode.RANK (RangeRank.new 20 5)

/-- Dispatch of `GraphLaplacian::do_svd`: the full LAPACK svd is used when the
laplacian is not CSR and has at most `FULL_SVD_SIZE_LIMIT` rows (returning
`none`: no range finder is involved); otherwise `do_approx_svd` runs the range
finder with `do_approx_svd_mode`. -/
def do_svd_mode (is_csr : Bool) (nbrow asked_dim : ℕ) : Option RangeApproxMode :=
  if is_csr = false ∧ nbrow ≤ FULL_SVD_SIZE_LIMIT then none
  else some (do_approx_svd_mode asked_dim)

/-! ## SVD error handling (graphlaplace.rs `svd_f32`, svdapprox.rs `direct_svd`)

The outcome of a call is `ok` (a decoded `SvdResult`, abstracted as `α`),
`err msg` (an `Err(String)` returned to the caller), or `panicked`
(`Result::unwrap` on an `Err`, i.e. a Rust panic). The LAPACK driver's
outcome is abstracted as `Except ℤ α` (`error i` models a non-zero return). -/

inductive SvdOutcome (α : Type) where
  | ok (val : α)
  | err (msg : String)
  | panicked

/-- Model of `svd_f32` (graphlaplace.rs lines 213-259): if the matrix cannot be
made a contiguous slice, return `Err`; then call the `svddc` driver; on driver
error the code prints a message and then calls `.unwrap()` on the `Err`,
which panics. -/
def svd_f32_model {α : Type} (contiguous : Bool) (lapackRes : Except ℤ α) :
    SvdOutcome α :=
  if contiguous then
    match lapackRes with
    | Except.ok r => SvdOutcome.ok r
    | Except.error _ => SvdOutcome.panicked
  else SvdOutcome.err "not contiguous or not in standard order"

/-- Model of `SvdApprox::direct_svd` (svdapprox.rs lines 429-478): if the range
approximation returns `None`, return `Err`; then check contiguity of
`B = Qᵀ·A` (`Err` on failure); then call `svddc`, printing and `.unwrap()`-ing
(panic) on driver error. -/
def direct_svd_model {α β : Type} (q_opt : Option β) (contiguous : Bool)
    (lapackRes : Except ℤ α) : SvdOutcome α :=
  match q_opt with
  | none => SvdOutcome.err "range approximation failed"
  | some _ =>
    if contiguous then
      match lapackRes with
      | Except.ok r => SvdOutcome.ok r
      | Except.error _ => SvdOutcome.panicked
    else SvdOutcome.err "not contiguous or not in standard order"

/-! ## Matrices with explicit shape, PRNG plumbing, subspace iteration
(src/tools/svdapprox.rs) -/

/-- A dense matrix (`ndarray::Array2<f32>`): shape plus entries. -/
structure Mat where
  rows : ℕ
  cols : ℕ
  entry : ℕ → ℕ → ℝ

/-- The fixed PRNG seed used by `RandomGaussianMatrix::new` and
`RandomGaussianGenerator::new` (svdapprox.rs lines 64 and 85): `4664397`. -/
def xoshiroSeed : ℕ := 4664397

/-- Model of a `Xoshiro256PlusPlus` state: it is a pure function of the
`u64` it was seeded with. -/
structure XoshiroState where
  seed : ℕ

/-- `Xoshiro256PlusPlus::seed_from_u64`. -/
def seedFromU64 (s : ℕ) : XoshiroState := ⟨s % 2 ^ 64⟩

/-- `RandomGaussianGenerator::new()`: a generator seeded with the fixed
constant `xoshiroSeed`. -/
def newGaussianGenerator : XoshiroState := seedFromU64 xoshiroSeed

/-- `RandomGaussianMatrix::new(dims)`: fills a fresh matrix with standard
normal samples drawn from a PRNG seeded (inside the function itself) with
`xoshiroSeed`.  The external sampling pipeline (SplitMix64 seeding, Xoshiro
output, ziggurat normal transform) is abstracted as `sample : seed → draw
index → value`. -/
def randomGaussianMatrixNew (sample : ℕ → ℕ → ℝ) (rows cols : ℕ) : Mat :=
  ⟨rows, cols, fun i j => sample (seedFromU64 xoshiroSeed).seed (i * cols + j)⟩

/-- `RandomGaussianGenerator::generate_matrix(&mut self, dims)`: the source
ignores `self.rng` and calls `RandomGaussianMatrix::new`, which re-seeds. -/
def generateMatrix (sample : ℕ → ℕ → ℝ) (_rng : XoshiroState) (rows cols : ℕ) :
    Mat :=
  randomGaussianMatrixNew sample rows cols

/-- Dense matrix product (`mat.dot` / `general_mat_mul`). -/
def matMulM (A B : Mat) : Mat :=
  ⟨A.rows, B.cols, fun i j => ∑ k ∈ Finset.range A.cols, A.entry i k * B.entry k j⟩

/-- `mat.t()`. -/
def transposeM (A : Mat) : Mat := ⟨A.cols, A.rows, fun i j => A.entry j i⟩

/-- `do_qr` (svdapprox.rs lines 517-526): LAPACK Householder factorisation
followed by Q-accumulation, performed in place, so the shape is unchanged;
the numerical content is abstracted as `qr`. -/
def doQrM (qr : Mat → ℕ → ℕ → ℝ) (A : Mat) : Mat := ⟨A.rows, A.cols, qr A⟩

/-- `subspace_iteration` (svdapprox.rs lines 249-280), threaded with an
explicit ambient generator state `rng` standing for the
`RandomGaussianGenerator` the function creates: `l = m.min(n).min(rank)`,
`omega` an `(n,l)` Gaussian matrix, `Y = QR(A·omega)`, then `nbiter - 1`
rounds of `Y ← QR(A·QR(Aᵀ·Y))`. -/
def subspaceIterationWithRng (sample : ℕ → ℕ → ℝ) (qr : Mat → ℕ → ℕ → ℝ)
    (rng : XoshiroState) (mat : Mat) (rank nbiter : ℕ) : Mat :=
  let m := mat.rows
  let n := mat.cols
  let l := min (min m n) rank
  let omega := generateMatrix sample rng n l
  let y0 := doQrM qr (matMulM mat omega)
  (fun y => doQrM qr (matMulM mat (doQrM qr (matMulM (transposeM mat) y))))^[nbiter - 1] y0

/-- `subspace_iteration` proper: the generator state is the one built by
`RandomGaussianGenerator::new()` on entry. -/
def subspaceIteration (sample : ℕ → ℕ → ℝ) (qr : Mat → ℕ → ℕ → ℝ)
    (mat : Mat) (rank nbiter : ℕ) : Mat :=
  subspaceIterationWithRng sample qr newGaussianGenerator mat rank nbiter

/-! ## Node parameters and kernel construction (src/diffmaps.rs) -/

/-- Modelled from the spec: `OutEdge`/`NodeParam` come from
`crate::tools::nodeparam`, absent from the provided sources; the spec gives
`NodeParam = { scale: f32, edges: Vec<OutEdge> }` with `OutEdge =
(node, weight)`. -/
structure NodeParam where
  scale : ℝ
  edges : List (ℕ × ℝ)

/-- The `NodeParam` produced by `Default`/an out-of-range access. -/
def defaultNodeParam : NodeParam := ⟨0, []⟩

/-- Modelled from the spec: `NodeParams = { params, max_nbng }`
(`crate::tools::nodeparam`, absent from the provided sources). -/
structure NodeParams where
  params : List NodeParam
  max_nbng : ℕ

/-- Number of nodes (`NodeParams::get_nb_nodes`). -/
def nbNodes (np : NodeParams) : ℕ := np.params.length

/-- `NodeParams::get_node_param(i)`. -/
def getNodeParam (np : NodeParams) (i : ℕ) : NodeParam :=
  np.params.getD i defaultNodeParam

/-- Modelled from the spec: `PROBA_MIN` (`crate::tools::nodeparam`, absent
from the provided sources) is "a small positive floor preventing exact
zeros"; its numerical value is immaterial to the claims. -/
def PROBA_MIN : ℝ := 1e-5

/-- `let epsil = 5.0f32.sqrt()` (compute_dmap_nodeparams). -/
noncomputable def epsilDmap : ℝ := Real.sqrt 5

/-- The closure `remap_weight` of `compute_dmap_nodeparams`:
`(-(((w - shift) / (epsil * scale)).powf(2.))).exp().max(PROBA_MIN)`. -/
noncomputable def remapWeight (w shift scale : ℝ) : ℝ :=
  max (Real.exp (-(((w - shift) / (epsilDmap * scale)) ^ 2))) PROBA_MIN

/-- The predicate of the `rfind` in `compute_dmap_nodeparams`:
`n.weight.to_f32().unwrap() > 0.`. -/
noncomputable def posWeight (e : ℕ × ℝ) : Bool := if 0 < e.2 then true else false

/-- The `all_equal` test of `compute_dmap_nodeparams` (diffmaps.rs lines
377-390): `rfind` the last neighbour with strictly positive distance; if none
exists all distances are zero and the node is degenerate; otherwise the node
is degenerate iff that distance is `≤` the first (nearest) distance. -/
noncomputable def allEqual (neighbours : List (ℕ × ℝ)) : Bool :=
  match neighbours.reverse.find? posWeight with
  | none => true
  | some last_n => if last_n.2 ≤ (neighbours.headD (0, 0)).2 then true else false

/-- The edge list built for node `i` by `compute_dmap_nodeparams` (diffmaps.rs
lines 391-422): a self-edge followed by the neighbour edges; uniform weights
`1/(1 + k)` in the degenerate case, otherwise self-weight `1` and Gaussian
remaps with bandwidth `sqrt(scale(to) * scale(from))`. -/
noncomputable def dmapEdges (i : ℕ) (neighbours : List (ℕ × ℝ))
    (scales : ℕ → ℝ) : List (ℕ × ℝ) :=
  if allEqual neighbours then
    (i, 1 / ((1 + neighbours.length : ℕ) : ℝ)) ::
      neighbours.map (fun nb => (nb.1, 1 / ((1 + neighbours.length : ℕ) : ℝ)))
  else
    (i, 1) ::
      neighbours.map (fun nb =>
        (nb.1, remapWeight nb.2 0 (Real.sqrt (scales nb.1 * scales i))))

/-- `get_dist_around_node` (diffmaps.rs lines 451-473): collect the
nearest-neighbour distance of every neighbour, append the node's own
nearest-neighbour distance `rho_x`, and divide the sum by the number of
out-edges.  `kn m` is the (distance-sorted) out-edge list of node `m`. -/
noncomputable def distAroundNode (kn : ℕ → List (ℕ × ℝ))
    (out_edges : List (ℕ × ℝ)) : ℝ :=
  ((out_edges.map (fun nb => ((kn nb.1).headD (0, 0)).2)) ++
      [(out_edges.headD (0, 0)).2]).sum / (out_edges.length : ℝ)

/-- `local_scales[i]` of `compute_dmap_nodeparams`. -/
noncomputable def localScales (kn : ℕ → List (ℕ × ℝ)) (i : ℕ) : ℝ :=
  distAroundNode kn (kn i)

/-- The `NodeParam` produced for node `i` by `compute_dmap_nodeparams`. -/
noncomputable def dmapNodeParamAt (kn : ℕ → List (ℕ × ℝ)) (i : ℕ) : NodeParam :=
  ⟨localScales kn i, dmapEdges i (kn i) (localScales kn)⟩

/-- Concrete 3-node neighbourhood map used to instantiate the kernel
theorems: node 0 has neighbours 1 (distance 1) and 2 (distance 2). -/
noncomputable def kn0 : ℕ → List (ℕ × ℝ) := fun m =>
  if m = 0 then [(1, 1), (2, 2)] else if m = 1 then [(0, 1)] else
    if m = 2 then [(0, 2)] else []

/-! ## Embedding from the Laplacian (diffmaps.rs `embed_from_laplacian`) -/

/-- The SVD data consumed by `embed_from_laplacian`: singular values `s`
(sorted non-increasing by LAPACK), left singular vectors `u` with its shape. -/
structure SvdResultR where
  s : ℕ → ℝ
  u : ℕ → ℕ → ℝ
  nrows : ℕ
  ncols : ℕ

/-- Modelled from the spec: `crate::tools::clip` is absent from the provided
sources; the spec says `clip(v, ±5)` clamps to `[-c, c]` ("guards against
numerical blow-ups"). -/
noncomputable def clip (x c : ℝ) : ℝ := max (-c) (min x c)

/-- `let real_dim = asked_dim.min(u.ncols())`. -/
def realDim (asked_dim ncols : ℕ) : ℕ := min asked_dim ncols

/-- `normalized_lambdas = lambdas / lambdas[0]`. -/
noncomputable def normalizedLambda (svd : SvdResultR) (k : ℕ) : ℝ :=
  svd.s k / svd.s 0

/-- The diffusion time: the caller's `t` if given, else
`5.0f32.min(0.9f32.ln() / (normalized_lambdas[2] / normalized_lambdas[1]).ln())`. -/
noncomputable def embedTime (svd : SvdResultR) (t_opt : Option ℝ) : ℝ :=
  match t_opt with
  | some t => t
  | none => min 5 (Real.log 0.9 /
      Real.log (normalizedLambda svd 2 / normalizedLambda svd 1))

/-- `let sum_diag = laplacian.degrees.iter().sum()` over the `n` degrees. -/
noncomputable def sumDiag (degrees : ℕ → ℝ) (n : ℕ) : ℝ :=
  ∑ k ∈ Finset.range n, degrees k

/-- `let weight_i = (laplacian.degrees[i] / sum_diag).sqrt()`. -/
noncomputable def weightI (degrees : ℕ → ℝ) (n i : ℕ) : ℝ :=
  Real.sqrt (degrees i / sumDiag degrees n)

/-- The value written into `embedded[[i, j]]` (diffmaps.rs lines 612-623):
`clip(normalized_lambdas[j+1].powf(time) * u[i, j+1] / weight_i, 5.)`. -/
noncomputable def embedEntry (svd : SvdResultR) (degrees : ℕ → ℝ) (n : ℕ)
    (t_opt : Option ℝ) (i j : ℕ) : ℝ :=
  clip (normalizedLambda svd (j + 1) ^ embedTime svd t_opt * svd.u i (j + 1) /
    weightI degrees n i) 5

/-- The embedding matrix `embedded : (u.nrows, real_dim)`, zero outside its
shape. -/
noncomputable def embeddedAt (svd : SvdResultR) (degrees : ℕ → ℝ) (n : ℕ)
    (asked_dim : ℕ) (t_opt : Option ℝ) (i j : ℕ) : ℝ :=
  if i < svd.nrows ∧ j < realDim asked_dim svd.ncols then
    embedEntry svd degrees n t_opt i j
  else 0

/-- Concrete SVD data used to instantiate the embedding theorem. -/
noncomputable def svd0 : SvdResultR := ⟨fun k => 1 / ((k : ℝ) + 1), fun _ _ => 1, 1, 2⟩

/-! ## Reindexing (diffmaps.rs `embedding_reindexed`) -/

/-- One pass of the reindexing loop body: row `i` of the internal embedding
`E` is written into row `idx i` of the output, column by column
(`reindexed[[*origin_id, j]] = row[j]` for `j < dim`). -/
def reindexWrite (dim : ℕ) (idx : ℕ → ℕ) (E : ℕ → ℕ → ℝ)
    (M : ℕ → ℕ → ℝ) (i : ℕ) : ℕ → ℕ → ℝ :=
  fun r c => if r = idx i ∧ c < dim then E i c else M r c

/-- `embedding_reindexed` (diffmaps.rs lines 633-654): start from a zeroed
`(nbrow, dim)` matrix and run the write loop for `i in 0..nbrow`; `idx i`
models `index.get_index(i).unwrap()`, the `DataId` stored at position `i`
of the index set cloned from the k-NN graph. -/
def reindexed (n dim : ℕ) (idx : ℕ → ℕ) (E : ℕ → ℕ → ℝ) : ℕ → ℕ → ℝ :=
  (List.range n).foldl (reindexWrite dim idx E) (fun _ _ => 0)

/-- Whether iteration `i` of the reindexing loop writes position `(r, c)`. -/
def writeHit (dim : ℕ) (idx : ℕ → ℕ) (r c i : ℕ) : Bool :=
  decide (r = idx i) && decide (c < dim)

/-! ## Laplacian assembly (`DiffusionMaps::compute_laplacian`, diffmaps.rs)

Dense path (`nbnodes <= FULL_MAT_REPR`): fill the directed kernel `T`,
symmetrise as `(T + Tᵀ) * 0.5`, α-reweight by the row sums `q`, recompute
degrees, normalise by `(D[i]·D[j])^{-1/2}` and (since `do_scale = true`)
divide by the product of sum-normalised local scales.

Sparse path: collect the directed edges in a map keyed by `(i, j)`; for each
entry push the two triplets `(i,j,sym)` and `(j,i,sym)` with `sym =
max(v, T[j,i])` when the reverse edge exists, accumulating the diagonal;
α-reweight the triplet values; recompute the diagonal; divide by
`sqrt(D[row]·D[col])`; the final CSR matrix (`TriMatBase::from_triplets`
followed by `to_csr`) sums duplicate triplets. -/

/-- Writing the weights of an edge list into a matrix row
(`transition_proba[[i, edge.node]] = edge.weight`, later writes winning). -/
noncomputable def edgeWeight (edges : List (ℕ × ℝ)) (j : ℕ) : ℝ :=
  edges.foldl (fun acc e => if e.1 = j then e.2 else acc) 0

/-- The directed kernel `T[i,j]` of the dense path. -/
noncomputable def transitionProba (np : NodeParams) (i j : ℕ) : ℝ :=
  edgeWeight (getNodeParam np i).edges j

/-- `let mut symgraph = (&transition_proba + &transition_proba.view().t()) * 0.5`. -/
noncomputable def symGraph (np : NodeParams) (i j : ℕ) : ℝ :=
  (transitionProba np i j + transitionProba np j i) * 0.5

/-- `let q = symgraph.sum_axis(Axis(1))`: the density proxy. -/
noncomputable def qAlfa (np : NodeParams) (i : ℕ) : ℝ :=
  ∑ j ∈ Finset.range (nbNodes np), symGraph np i j

/-- The α-reweighted kernel: `row[[j]] /= (q[[i]] * q[[j]]).powf(alfa)`. -/
noncomputable def reweighted (np : NodeParams) (alfa : ℝ) (i j : ℕ) : ℝ :=
  symGraph np i j / (qAlfa np i * qAlfa np j) ^ alfa

/-- `degrees[[i]] = row.sum()` after the α-reweighting. -/
noncomputable def denseDegrees (np : NodeParams) (alfa : ℝ) (i : ℕ) : ℝ :=
  ∑ j ∈ Finset.range (nbNodes np), reweighted np alfa i j

/-- `row[[j]] /= (degrees[[i]] * degrees[[j]]).sqrt()`. -/
noncomputable def denseNormalized (np : NodeParams) (alfa : ℝ) (i j : ℕ) : ℝ :=
  reweighted np alfa i j /
    Real.sqrt (denseDegrees np alfa i * denseDegrees np alfa j)

/-- `mean_scale` is the *sum* of the node scales (the source sums and then
divides every scale by it). -/
noncomputable def sumScales (np : NodeParams) : ℝ :=
  (np.params.map (fun p => p.scale)).sum

/-- `local_scale[i]` after the in-place division by `mean_scale`. -/
noncomputable def localScaleN (np : NodeParams) (i : ℕ) : ℝ :=
  (getNodeParam np i).scale / sumScales np

/-- The dense symmetric laplacian including the `do_scale = true` division
`row[[j]] /= local_scale[i] * local_scale[j]`. -/
noncomputable def denseLap (np : NodeParams) (alfa : ℝ) (i j : ℕ) : ℝ :=
  denseNormalized np alfa i j / (localScaleN np i * localScaleN np j)

/-- The sparse path's `edge_list` hash map
(`edge_list.insert((i, edge.node), weight)` for `i in 0..len`), as an
association list; keys are pairwise distinct whenever each node's edge list
has distinct targets. -/
noncomputable def edgeList (np : NodeParams) : List ((ℕ × ℕ) × ℝ) :=
  (List.range np.params.length).flatMap
    (fun i => (getNodeParam np i).edges.map (fun e => ((i, e.1), e.2)))

/-- `sym_val`: `max(v, t_val)` when the reverse edge `(j,i)` is present,
else `v`. -/
noncomputable def symValS (el : List ((ℕ × ℕ) × ℝ)) (i j : ℕ) (v : ℝ) : ℝ :=
  match el.lookup (j, i) with
  | some t => max v t
  | none => v

/-- The two triplets pushed for one `edge_list` entry:
`(i,j,sym_val)` and `(j,i,sym_val)`. -/
noncomputable def tripletPair (el : List ((ℕ × ℕ) × ℝ)) (x : (ℕ × ℕ) × ℝ) :
    List (ℕ × ℕ × ℝ) :=
  [(x.1.1, x.1.2, symValS el x.1.1 x.1.2 x.2),
   (x.1.2, x.1.1, symValS el x.1.1 x.1.2 x.2)]

/-- All triplets pushed by the symmetrisation loop. -/
noncomputable def triplets (el : List ((ℕ × ℕ) × ℝ)) : List (ℕ × ℕ × ℝ) :=
  el.flatMap (tripletPair el)

/-- Row sums of a triplet list (`diagonal[row] += value` accumulated over
the triplets). -/
noncomputable def rowSumTriplets (l : List (ℕ × ℕ × ℝ)) (a : ℕ) : ℝ :=
  (l.map (fun t => if t.1 = a then t.2.2 else 0)).sum

/-- The first `diagonal` (accumulated while pushing triplets). -/
noncomputable def diagOne (el : List ((ℕ × ℕ) × ℝ)) (a : ℕ) : ℝ :=
  rowSumTriplets (triplets el) a

/-- `values[i] /= (diagonal[row] * diagonal[col]).powf(alfa)`. -/
noncomputable def triplets2 (el : List ((ℕ × ℕ) × ℝ)) (alfa : ℝ) :
    List (ℕ × ℕ × ℝ) :=
  (triplets el).map
    (fun t => (t.1, t.2.1, t.2.2 / (diagOne el t.1 * diagOne el t.2.1) ^ alfa))

/-- The recomputed `diagonal` after the α-reweighting (`diagonal.fill(0.)`
then `diagonal[row] += v`). -/
noncomputable def diagTwo (el : List ((ℕ × ℕ) × ℝ)) (alfa : ℝ) (a : ℕ) : ℝ :=
  rowSumTriplets (triplets2 el alfa) a

/-- `values[i] /= (diagonal[row] * diagonal[col]).sqrt()`. -/
noncomputable def triplets3 (el : List ((ℕ × ℕ) × ℝ)) (alfa : ℝ) :
    List (ℕ × ℕ × ℝ) :=
  (triplets2 el alfa).map
    (fun t => (t.1, t.2.1, t.2.2 /
      Real.sqrt (diagTwo el alfa t.1 * diagTwo el alfa t.2.1)))

/-- Entry `(a,b)` of the CSR matrix built from a triplet list:
`TriMatBase::from_triplets(...).to_csr()` sums duplicate triplets. -/
noncomputable def csrEntry (l : List (ℕ × ℕ × ℝ)) (a b : ℕ) : ℝ :=
  (l.map (fun t => if t.1 = a ∧ t.2.1 = b then t.2.2 else 0)).sum

/-- The assembled symmetrised kernel of the sparse path (before the
α-reweighting). -/
noncomputable def sparseKernel (el : List ((ℕ × ℕ) × ℝ)) (a b : ℕ) : ℝ :=
  csrEntry (triplets el) a b

/-- The assembled α-reweighted kernel of the sparse path. -/
noncomputable def alphaKernel (el : List ((ℕ × ℕ) × ℝ)) (alfa : ℝ) (a b : ℕ) : ℝ :=
  csrEntry (triplets2 el alfa) a b

/-- The sparse symmetric laplacian. -/
noncomputable def sparseLap (np : NodeParams) (alfa : ℝ) (a b : ℕ) : ℝ :=
  csrEntry (triplets3 (edgeList np) alfa) a b

/-- The `degrees` stored by the sparse path (the recomputed `diagonal`). -/
noncomputable def sparseDegrees (np : NodeParams) (alfa : ℝ) (a : ℕ) : ℝ :=
  diagTwo (edgeList np) alfa a

/-- `sym_laplacian` of the `GraphLaplacian` returned by `compute_laplacian`:
dense for `nbnodes <= FULL_MAT_REPR`, CSR otherwise. -/
noncomputable def lapSym (np : NodeParams) (alfa : ℝ) (i j : ℕ) : ℝ :=
  if nbNodes np ≤ FULL_MAT_REPR then denseLap np alfa i j
  else sparseLap np alfa i j

/-- `degrees` of the `GraphLaplacian` returned by `compute_laplacian`. -/
noncomputable def lapDegrees (np : NodeParams) (alfa : ℝ) (i : ℕ) : ℝ :=
  if nbNodes np ≤ FULL_MAT_REPR then denseDegrees np alfa i
  else sparseDegrees np alfa i

/-- One-node instance: a single node with a unit self-edge. -/
noncomputable def np1 : NodeParams := ⟨[⟨1, [(0, 1)]⟩], 1⟩

/-- Two-node instance with all kernel weights 1 and unit scales. -/
noncomputable def np2 : NodeParams :=
  ⟨[⟨1, [(0, 1), (1, 1)]⟩, ⟨1, [(0, 1), (1, 1)]⟩], 2⟩

/-- 5001-node instance (forcing the sparse path): node 0 has the single edge
`0 → 1` with weight 1, node 1 the single edge `1 → 0` with weight 3, all
other nodes are isolated. -/
noncomputable def npBig : NodeParams :=
  ⟨⟨1, [(1, 1)]⟩ :: ⟨1, [(0, 3)]⟩ :: List.replicate 4999 ⟨1, []⟩, 1⟩

/-! ## Adaptive range finder (svdapprox.rs `adaptative_range_finder_matrep`)
and the full randomised pipeline -/

/-- `norm_l2`: square root of the sum of squared entries (over the first `m`
coordinates of a column vector). -/
noncomputable def normL2v (m : ℕ) (v : ℕ → ℝ) : ℝ :=
  Real.sqrt (∑ i ∈ Finset.range m, v i * v i)

/-- Euclidean inner product over the first `m` coordinates. -/
noncomputable def vecDot (m : ℕ) (u v : ℕ → ℝ) : ℝ :=
  ∑ i ∈ Finset.range m, u i * v i

/-- `MatRepr::mat_dot_vector` (dense gemv / CSR·vector: the same product). -/
noncomputable def matVec (A : Mat) (v : ℕ → ℝ) : ℕ → ℝ :=
  fun i => ∑ k ∈ Finset.range A.cols, A.entry i k * v k

/-- `orthogonalize_with_q` (svdapprox.rs lines 497-511):
`y ← y − Σ_i q_i · (q_i ⬝ y)`; an empty `q` leaves `y` unchanged (the sum is
empty). -/
noncomputable def orthogonalizeWithQ (m : ℕ) (q : List (ℕ → ℝ)) (y : ℕ → ℝ) :
    ℕ → ℝ :=
  fun i => y i - (q.map (fun qv => qv i * vecDot m qv y)).sum

/-- `norms_y.iter().max_by(...)`: the largest of the candidate norms.  The
source unwraps the maximum of the (non-empty) norm list; since all norms are
non-negative square roots the `0` seed of the fold is inert. -/
noncomputable def normSup (norms : List ℝ) : ℝ := norms.foldr max 0

/-- `Float::epsilon()` for `f32`: `2⁻²³`. -/
noncomputable def f32Epsilon : ℝ := 1 / 2 ^ 23

/-- `RandomGaussianGenerator` together with the number of samples already
drawn from it: the Xoshiro state after `k` draws is a pure function of the
seed and `k`, so `(state, drawn)` models the mutable generator. -/
structure GaussianGenerator where
  rng : XoshiroState
  drawn : ℕ

/-- `RandomGaussianGenerator::new()`: seeded with the fixed constant, no
samples drawn yet. -/
noncomputable def gaussianGeneratorNew : GaussianGenerator :=
  ⟨seedFromU64 xoshiroSeed, 0⟩

/-- `generate_stdn_vect(&mut self, dim)`: the next `dim` samples of the
seeded stream, advancing the generator. -/
noncomputable def generateStdnVect (sample : ℕ → ℕ → ℝ) (g : GaussianGenerator)
    (dim : ℕ) : (ℕ → ℝ) × GaussianGenerator :=
  (fun i => sample g.rng.seed (g.drawn + i), ⟨g.rng, g.drawn + dim⟩)

/-- One pass of the while-loop of `adaptative_range_finder_matrep`
(svdapprox.rs lines 329-367), fuelled by the remaining permitted iterations
(`nb_iter <= max_iter` allows `max_iter + 1` passes): re-orthogonalise
`y_j` against `Q`; stop if its norm is below machine epsilon; normalise it
into a new column `q_j`; draw a fresh Gaussian `ω`, form `A·ω`,
orthogonalise it against all of `Q` and put it in slot `j`; orthogonalise
the other `y_k` against `q_j`; update `norms_y[j]` and advance
`j = (j+1) % r`. -/
noncomputable def adaptLoop (sample : ℕ → ℕ → ℝ) (mat : Mat) (r : ℕ)
    (stopVal : ℝ) :
    ℕ → GaussianGenerator → List (ℕ → ℝ) → List (ℕ → ℝ) → List ℝ → ℕ →
      List (ℕ → ℝ)
  | 0, _, q_mat, _, _, _ => q_mat
  | fuel + 1, g, q_mat, y_vec, norms_y, j =>
    if normSup norms_y > stopVal then
      let y_j :=
        if 0 < q_mat.length then
          orthogonalizeWithQ mat.rows q_mat (y_vec.getD j (fun _ => 0))
        else y_vec.getD j (fun _ => 0)
      let n_j := normL2v mat.rows y_j
      if n_j < f32Epsilon then q_mat
      else
        let q_j := fun i => y_j i / n_j
        let q_mat2 := q_mat ++ [q_j]
        let drawn := generateStdnVect sample g mat.cols
        let y_new := orthogonalizeWithQ mat.rows q_mat2 (matVec mat drawn.1)
        let y_vec2 := (y_vec.set j y_new).mapIdx
          (fun k y => if k = j then y
            else fun i => y i - q_j i * vecDot mat.rows q_j y)
        let norms2 := norms_y.set j (normL2v mat.rows (y_vec2.getD j (fun _ => 0)))
        adaptLoop sample mat r stopVal fuel drawn.2 q_mat2 y_vec2 norms2 ((j + 1) % r)
    else q_mat

/-- `adaptative_range_finder_matrep(mat, epsil, r)` (svdapprox.rs lines
299-379), threaded with an ambient generator state `_rng` that the source
ignores: the function constructs its own `RandomGaussianGenerator::new()`.
`stop_val = epsil / (10·sqrt(2·(1/π)))`; `omega` is the `(n, r)` Gaussian
matrix (drawn by `generate_matrix`, which re-seeds and leaves the generator
untouched); `y_vec` starts as `A·omega`'s columns; the hard iteration cap is
`min(m, n)`; the accumulated orthonormal columns are returned as an
`(m, q_mat.len())` matrix with `q[[j, i]] = q_mat[i][j]`. -/
noncomputable def adaptativeRangeFinderWithRng (sample : ℕ → ℕ → ℝ)
    (_rng : XoshiroState) (mat : Mat) (epsil : ℝ) (r : ℕ) : Mat :=
  let g0 := gaussianGeneratorNew
  let stopVal := epsil / (10 * Real.sqrt (2 * (1 / Real.pi)))
  let omega := randomGaussianMatrixNew sample mat.cols r
  let y0 := (List.range r).map (fun j => matVec mat (fun i => omega.entry i j))
  let norms0 := y0.map (normL2v mat.rows)
  let maxIter := min mat.rows mat.cols
  let q_final := adaptLoop sample mat r stopVal (maxIter + 1) g0 [] y0 norms0 0
  ⟨mat.rows, q_final.length, fun i j => (q_final.getD j (fun _ => 0)) i⟩

/-- `RangeApprox::approximate` (svdapprox.rs lines 226-241): EPSIL mode runs
the adaptive range finder on either representation; RANK mode runs
`subspace_iteration`, which is only possible for a dense matrix (`None` for
CSR). -/
noncomputable def approximateWithRng (sample : ℕ → ℕ → ℝ)
    (qr : Mat → ℕ → ℕ → ℝ) (rng : XoshiroState) (mat : Mat) (is_csr : Bool)
    (mode : RangeApproxMode) : Option Mat :=
  match mode with
  | RangeApproxMode.EPSIL p =>
    some (adaptativeRangeFinderWithRng sample rng mat p.epsil p.step)
  | RangeApproxMode.RANK rr =>
    if is_csr then none
    else some (subspaceIterationWithRng sample qr rng mat rr.rank rr.nbiter)

/-- The lift `U = Q·Ũ` of `direct_svd` step 5: the small SVD of `B = Qᵀ·A`
(abstracted in `small`) is lifted through the range basis `Q`. -/
noncomputable def liftSvd (q : Mat) (small : SvdResultR) : SvdResultR :=
  ⟨small.s, fun i k => ∑ t ∈ Finset.range q.cols, q.entry i t * small.u t k,
    q.rows, small.ncols⟩

/-- The embedding pipeline of `embed_from_laplacian` threaded with an ambient
generator state: assemble the laplacian, run `do_svd` (direct LAPACK svd when
dense and at most `FULL_SVD_SIZE_LIMIT` rows; otherwise the range finder in
`RANK(20, 5)` mode followed by the small SVD of `B = Qᵀ·A` and the lift
`U = Q·Ũ`), apply the diffusion-time weighting and clip, and reindex by the
stored `DataId`s.  The two LAPACK decodes are abstracted as `fullSvd` and
`smallSvd`; `none` models the panic on a failed range approximation. -/
noncomputable def embeddingRun (sample : ℕ → ℕ → ℝ) (qr : Mat → ℕ → ℕ → ℝ)
    (fullSvd smallSvd : Mat → SvdResultR) (rng : XoshiroState)
    (np : NodeParams) (alfa : ℝ) (asked_dim : ℕ) (t_opt : Option ℝ)
    (idx : ℕ → ℕ) : Option (ℕ → ℕ → ℝ) :=
  let n := nbNodes np
  let is_csr : Bool := decide (FULL_MAT_REPR < n)
  let lap : Mat := ⟨n, n, lapSym np alfa⟩
  let svd_opt : Option SvdResultR :=
    if is_csr = false ∧ n ≤ FULL_SVD_SIZE_LIMIT then some (fullSvd lap)
    else
      (approximateWithRng sample qr rng lap is_csr
        (RangeApproxMode.RANK (RangeRank.new 20 5))).map
        (fun q => liftSvd q (smallSvd (matMulM (transposeM q) lap)))
  svd_opt.map (fun svd =>
    reindexed svd.nrows (realDim asked_dim svd.ncols) idx
      (embeddedAt svd (lapDegrees np alfa) n asked_dim t_opt))

/-! # Theorems -/

lemma sumMapAdd {α : Type} (l : List α) (f g : α → ℝ) :
    (l.map (fun x => f x + g x)).sum = (l.map f).sum + (l.map g).sum := by
  induction l with
  | nil => simp
  | cons x t ih =>
    simp only [List.map_cons, List.sum_cons, ih]
    ring

lemma csrEntry_append (l₁ l₂ : List (ℕ × ℕ × ℝ)) (a b : ℕ) :
    csrEntry (l₁ ++ l₂) a b = csrEntry l₁ a b + csrEntry l₂ a b := by
  simp [csrEntry]

lemma csrEntry_flatMap {α : Type} (l : List α) (g : α → List (ℕ × ℕ × ℝ))
    (a b : ℕ) :
    csrEntry (l.flatMap g) a b = (l.map (fun x => csrEntry (g x) a b)).sum := by
  induction l with
  | nil => simp [csrEntry]
  | cons x t ih =>
    rw [List.flatMap_cons, csrEntry_append, ih, List.map_cons, List.sum_cons]

lemma csrEntry_tripletPair (el : List ((ℕ × ℕ) × ℝ)) (x : (ℕ × ℕ) × ℝ)
    (a b : ℕ) :
    csrEntry (tripletPair el x) a b =
      (if x.1 = (a, b) then symValS el x.1.1 x.1.2 x.2 else 0) +
      (if x.1 = (b, a) then symValS el x.1.1 x.1.2 x.2 else 0) := by
  simp only [csrEntry, tripletPair, List.map_cons, List.map_nil, List.sum_cons,
    List.sum_nil, add_zero]
  congr 1 <;> simp [Prod.ext_iff, and_comm]

/-- Summing an indicator over an association list with pairwise-distinct keys
recovers the looked-up entry. -/
lemma sum_map_ite_key (el : List ((ℕ × ℕ) × ℝ)) (k : ℕ × ℕ)
    (G : (ℕ × ℕ) → ℝ → ℝ) (h : (el.map Prod.fst).Nodup) :
    (el.map (fun x => if x.1 = k then G x.1 x.2 else 0)).sum =
      (el.lookup k).elim 0 (G k) := by
  induction el with
  | nil => rfl
  | cons x t ih =>
    obtain ⟨xk, xv⟩ := x
    rw [List.map_cons, List.sum_cons]
    rw [List.map_cons, List.nodup_cons] at h
    by_cases hx : xk = k
    · subst hx
    -- no entry for xk remains in t
      have hz : (t.map (fun y => if y.1 = xk then G y.1 y.2 else 0)).sum = 0 := by
        apply List.sum_eq_zero
        intro v hv
        obtain ⟨y, hy, rfl⟩ := List.mem_map.mp hv
        rw [if_neg]
        intro hyk
        apply h.1
        rw [← hyk]
        exact List.mem_map.mpr ⟨y, hy, rfl⟩
      rw [hz, add_zero, List.lookup_cons_self]
      simp
    · have hne : ((xk, xv) :: t).lookup k = t.lookup k := by
        rw [List.lookup_cons]
        have : (k == xk) = false := beq_eq_false_iff_ne.mpr (fun hk => hx hk.symm)
        rw [this]
      rw [hne, if_neg (by simpa using hx), zero_add]
      exact ih h.2

/-- The assembled sparse kernel, characterised by the two directed lookups:
an unordered pair present in both directions is counted twice. -/
lemma sparseKernel_char (el : List ((ℕ × ℕ) × ℝ))
    (h : (el.map Prod.fst).Nodup) (a b : ℕ) :
    sparseKernel el a b =
      match el.lookup (a, b), el.lookup (b, a) with
      | some v, some w => 2 * max v w
      | some v, none => v
      | none, some w => w
      | none, none => 0 := by
  have h1 : sparseKernel el a b =
      (el.map (fun x => if x.1 = (a, b) then symValS el x.1.1 x.1.2 x.2 else 0)).sum +
      (el.map (fun x => if x.1 = (b, a) then symValS el x.1.1 x.1.2 x.2 else 0)).sum := by
    unfold sparseKernel triplets
    rw [csrEntry_flatMap]
    rw [show (fun x : (ℕ × ℕ) × ℝ => csrEntry (tripletPair el x) a b) =
      (fun x : (ℕ × ℕ) × ℝ =>
        (if x.1 = (a, b) then symValS el x.1.1 x.1.2 x.2 else 0) +
        (if x.1 = (b, a) then symValS el x.1.1 x.1.2 x.2 else 0)) from
      funext fun x => csrEntry_tripletPair el x a b]
    exact sumMapAdd el _ _
  rw [h1, sum_map_ite_key el (a, b) (fun k v => symValS el k.1 k.2 v) h,
    sum_map_ite_key el (b, a) (fun k v => symValS el k.1 k.2 v) h]
  cases hab : el.lookup (a, b) with
  | none =>
    cases hba : el.lookup (b, a) with
    | none => simp
    | some w => simp [symValS, hab]
  | some v =>
    cases hba : el.lookup (b, a) with
    | none => simp [symValS, hba]
    | some w =>
      simp only [Option.elim]
      rw [show symValS el a b v = max v w from by simp [symValS, hba],
        show symValS el b a w = max w v from by simp [symValS, hab],
        max_comm w v]
      ring

/-- Dividing every triplet value by a factor of its row and column indices
divides every entry of the assembled matrix by that factor. -/
lemma csrEntry_map_div (l : List (ℕ × ℕ × ℝ)) (A : ℕ → ℕ → ℝ) (a b : ℕ) :
    csrEntry (l.map (fun t => (t.1, t.2.1, t.2.2 / A t.1 t.2.1))) a b =
      csrEntry l a b / A a b := by
  induction l with
  | nil => simp [csrEntry]
  | cons t l ih =>
    simp only [List.map_cons, csrEntry, List.sum_cons] at ih ⊢
    by_cases h : t.1 = a ∧ t.2.1 = b
    · rw [if_pos h, if_pos h, h.1, h.2, ih, add_div]
    · rw [if_neg h, if_neg h, zero_add, zero_add, ih]

lemma sparseKernel_symm (el : List ((ℕ × ℕ) × ℝ)) (a b : ℕ) :
    sparseKernel el a b = sparseKernel el b a := by
  have hfun : (fun x : (ℕ × ℕ) × ℝ => csrEntry (tripletPair el x) a b) =
      (fun x : (ℕ × ℕ) × ℝ => csrEntry (tripletPair el x) b a) := by
    funext x
    rw [csrEntry_tripletPair, csrEntry_tripletPair, add_comm]
  unfold sparseKernel triplets
  rw [csrEntry_flatMap, csrEntry_flatMap, hfun]

lemma alphaKernel_eq (el : List ((ℕ × ℕ) × ℝ)) (alfa : ℝ) (a b : ℕ) :
    alphaKernel el alfa a b =
      sparseKernel el a b / (diagOne el a * diagOne el b) ^ alfa :=
  csrEntry_map_div (triplets el)
    (fun r c => (diagOne el r * diagOne el c) ^ alfa) a b

lemma sparseLapEl_eq (el : List ((ℕ × ℕ) × ℝ)) (alfa : ℝ) (a b : ℕ) :
    csrEntry (triplets3 el alfa) a b =
      alphaKernel el alfa a b /
        Real.sqrt (diagTwo el alfa a * diagTwo el alfa b) :=
  csrEntry_map_div (triplets2 el alfa)
    (fun r c => Real.sqrt (diagTwo el alfa r * diagTwo el alfa c)) a b

lemma sparseLap_symm (np : NodeParams) (alfa : ℝ) (a b : ℕ) :
    sparseLap np alfa a b = sparseLap np alfa b a := by
  unfold sparseLap
  rw [sparseLapEl_eq, sparseLapEl_eq, alphaKernel_eq, alphaKernel_eq,
    sparseKernel_symm (edgeList np) a b,
    mul_comm (diagOne (edgeList np) a) (diagOne (edgeList np) b),
    mul_comm (diagTwo (edgeList np) alfa a) (diagTwo (edgeList np) alfa b)]

lemma denseLap_symm (np : NodeParams) (alfa : ℝ) (i j : ℕ) :
    denseLap np alfa i j = denseLap np alfa j i := by
  unfold denseLap denseNormalized reweighted symGraph
  rw [add_comm (transitionProba np j i) (transitionProba np i j),
    mul_comm (qAlfa np j) (qAlfa np i),
    mul_comm (denseDegrees np alfa j) (denseDegrees np alfa i),
    mul_comm (localScaleN np j) (localScaleN np i)]

/-- Under the k-NN-graph contract (non-negative distances, last edge
farthest), the `all_equal` test of `compute_dmap_nodeparams` holds exactly
when the farthest distance is at most the nearest one. -/
lemma allEqual_eq_true_iff (l : List (ℕ × ℝ)) (hne : l ≠ [])
    (hpos : ∀ e ∈ l, 0 ≤ e.2) (hmax : ∀ e ∈ l, e.2 ≤ (l.getLastD (0, 0)).2) :
    allEqual l = true ↔ (l.getLastD (0, 0)).2 ≤ (l.headD (0, 0)).2 := by
  rcases List.eq_nil_or_concat l with rfl | ⟨l', a, rfl⟩
  · exact absurd rfl hne
  · have hrev : (l'.concat a).reverse = a :: l'.reverse := by
      simp
    have hlast : (l'.concat a).getLastD (0, 0) = a := by
      simp [List.concat_eq_append]
    by_cases ha : (0 : ℝ) < a.2
    · have hp : posWeight a = true := by
        simp [posWeight, ha]
      unfold allEqual
      rw [hrev, List.find?_cons_of_pos _ hp, hlast]
      by_cases hc : a.2 ≤ ((l'.concat a).headD (0, 0)).2 <;> simp [hc]
    · have ha0 : a.2 = 0 := le_antisymm (not_lt.mp ha)
        (hpos a (by simp [List.concat_eq_append]))
      have hall : ∀ e ∈ l'.concat a, e.2 = 0 := by
        intro e he
        have h1 := hmax e he
        rw [hlast, ha0] at h1
        exact le_antisymm h1 (hpos e he)
      have hnone : ((l'.concat a).reverse.find? posWeight) = none := by
        rw [List.find?_eq_none]
        intro x hx
        have := hall x (List.mem_reverse.mp hx)
        simp [posWeight, this]
      have hhead : 0 ≤ ((l'.concat a).headD (0, 0)).2 := by
        cases l' with
        | nil => exact le_of_eq ha0.symm
        | cons x t =>
          exact hpos x (by
            rw [List.concat_eq_append]
            exact List.mem_append_left _ (List.mem_cons_self x t))
      unfold allEqual
      rw [hnone, hlast, ha0]
      exact iff_of_true rfl hhead

/-- C5: in `compute_dmap_nodeparams`, a node whose farthest neighbour
distance is at most its nearest neighbour distance (the all-zero case
included) gets the uniform weight `1/(k+1)` on its self-edge and on each of
its `k` neighbour edges; every other node gets self-edge weight `1.0` and
Gaussian-remapped neighbour weights.  Hypotheses: the out-edge list is
non-empty, distances are non-negative and the last edge is the farthest
(the k-NN graph supplies edges sorted by ascending distance). -/
theorem degenerate_neighbourhood_policy (i : ℕ) (l : List (ℕ × ℝ))
    (sc : ℕ → ℝ) (hne : l ≠ []) (hpos : ∀ e ∈ l, 0 ≤ e.2)
    (hmax : ∀ e ∈ l, e.2 ≤ (l.getLastD (0, 0)).2) :
    ((l.getLastD (0, 0)).2 ≤ (l.headD (0, 0)).2 →
      dmapEdges i l sc =
        (i, 1 / ((l.length : ℝ) + 1)) ::
          l.map (fun nb => (nb.1, 1 / ((l.length : ℝ) + 1)))) ∧
    ((l.headD (0, 0)).2 < (l.getLastD (0, 0)).2 →
      dmapEdges i l sc =
        (i, 1) :: l.map (fun nb =>
          (nb.1, remapWeight nb.2 0 (Real.sqrt (sc nb.1 * sc i))))) := by
  have hiff := allEqual_eq_true_iff l hne hpos hmax
  constructor
  · intro h
    have hAE : allEqual l = true := hiff.mpr h
    have hc : ((1 + l.length : ℕ) : ℝ) = (l.length : ℝ) + 1 := by
      push_cast
      ring
    simp only [dmapEdges, hAE, if_true]
    simp only [hc]
  · intro h
    have hAE : allEqual l = false := Bool.eq_false_iff.mpr (fun hT =>
      absurd (hiff.mp hT) (not_le.mpr h))
    simp only [dmapEdges, hAE, Bool.false_eq_true, if_false]

/-- C5 witness: a node whose two neighbours both sit at distance 1 receives
uniform weights `1/3` on the self-edge and both neighbour edges. -/
theorem degenerate_neighbourhood_policy_witness :
    dmapEdges 0 [(1, (1 : ℝ)), (2, 1)] (fun _ => 1) =
      [(0, 1 / ((2 : ℝ) + 1)), (1, 1 / ((2 : ℝ) + 1)), (2, 1 / ((2 : ℝ) + 1))] := by
  have h := (degenerate_neighbourhood_policy 0 [(1, (1 : ℝ)), (2, 1)] (fun _ => 1)
    (by simp)
    (by
      intro e he
      simp only [List.mem_cons, List.mem_singleton, List.not_mem_nil, or_false] at he
      rcases he with rfl | rfl <;> norm_num)
    (by
      intro e he
      simp only [List.mem_cons, List.mem_singleton, List.not_mem_nil, or_false] at he
      rcases he with rfl | rfl <;> norm_num)).1
    (by norm_num)
  simpa using h

/-- C6: in the non-degenerate case each neighbour edge weight equals
`max(exp(-((d - shift)/(epsil·s))²), PROBA_MIN)` with `epsil = sqrt 5`,
`shift = 0` and `s = sqrt(scale(i)·scale(j))`; and `scale(i)` is
`(rho(i) + Σ_j rho(n_j)) / k` with `rho` the nearest-neighbour distance. -/
theorem kernel_weight_formula (kn : ℕ → List (ℕ × ℝ)) (i : ℕ)
    (h : allEqual (kn i) = false) :
    (dmapNodeParamAt kn i).edges =
      (i, 1) :: (kn i).map (fun nb =>
        (nb.1, max (Real.exp (-(((nb.2 - 0) /
          (Real.sqrt 5 * Real.sqrt (localScales kn i * localScales kn nb.1))) ^ 2)))
          PROBA_MIN)) ∧
    localScales kn i =
      (((kn i).headD (0, 0)).2 +
        ((kn i).map (fun nb => ((kn nb.1).headD (0, 0)).2)).sum) /
        ((kn i).length : ℝ) := by
  constructor
  · have hfun : (fun nb : ℕ × ℝ =>
        (nb.1, remapWeight nb.2 0 (Real.sqrt (localScales kn nb.1 * localScales kn i)))) =
        (fun nb : ℕ × ℝ => (nb.1, max (Real.exp (-(((nb.2 - 0) /
          (Real.sqrt 5 * Real.sqrt (localScales kn i * localScales kn nb.1))) ^ 2)))
          PROBA_MIN)) := by
      funext nb
      rw [show localScales kn nb.1 * localScales kn i =
        localScales kn i * localScales kn nb.1 from mul_comm _ _]
      rfl
    simp only [dmapNodeParamAt, dmapEdges, h, Bool.false_eq_true, if_false]
    rw [hfun]
  · simp only [localScales, distAroundNode, List.sum_append, List.sum_cons,
      List.sum_nil]
    ring

/-- C6 witness: instance of `kernel_weight_formula` at the concrete map
`kn0`, whose node 0 has neighbours at distances 1 and 2. -/
theorem kernel_weight_formula_witness :
    (dmapNodeParamAt kn0 0).edges =
      (0, 1) :: (kn0 0).map (fun nb =>
        (nb.1, max (Real.exp (-(((nb.2 - 0) /
          (Real.sqrt 5 * Real.sqrt (localScales kn0 0 * localScales kn0 nb.1))) ^ 2)))
          PROBA_MIN)) ∧
    localScales kn0 0 =
      (((kn0 0).headD (0, 0)).2 +
        ((kn0 0).map (fun nb => ((kn0 nb.1).headD (0, 0)).2)).sum) /
        ((kn0 0).length : ℝ) :=
  kernel_weight_formula kn0 0 (by
    have h0 : kn0 0 = [(1, (1 : ℝ)), (2, 2)] := by simp [kn0]
    rw [h0]
    have hrev : ([(1, (1 : ℝ)), (2, 2)] : List (ℕ × ℝ)).reverse = [(2, 2), (1, 1)] := by
      simp
    have hp : posWeight (2, (2 : ℝ)) = true := by
      norm_num [posWeight]
    unfold allEqual
    rw [hrev, List.find?_cons_of_pos _ hp]
    norm_num)

/-- C1 counterexample: with `asked_dim = 2` the approximate-svd path passes
rank `20`, not `asked_dim + 20 = 22`, to the range finder (here on the CSR
branch of `do_svd`, which always falls through to `do_approx_svd`). -/
theorem do_approx_svd_rank_counterexample :
    do_svd_mode true 6000 2 = some (do_approx_svd_mode 2) ∧
    do_approx_svd_mode 2 ≠ RangeApproxMode.RANK (RangeRank.new (2 + 20) 5) := by
  constructor
  · simp [do_svd_mode]
  · intro h
    simp only [do_approx_svd_mode, RangeApproxMode.RANK.injEq, RangeRank.new,
      RangeRank.mk.injEq] at h
    omega

/-- C1 (amended): whenever `do_svd` with `asked_dim ≥ 2` falls through to
`do_approx_svd` (CSR representation, or more than `FULL_SVD_SIZE_LIMIT`
rows), the range finder is invoked in RANK mode with the constant rank `20`
(independent of `asked_dim`) and `5` subspace iterations. -/
theorem do_approx_svd_rank_amended (is_csr : Bool) (nbrow asked_dim : ℕ)
    (hdim : 2 ≤ asked_dim)
    (hpath : is_csr = true ∨ FULL_SVD_SIZE_LIMIT < nbrow) :
    do_svd_mode is_csr nbrow asked_dim =
      some (RangeApproxMode.RANK (RangeRank.new 20 5)) := by
  rcases hpath with h | h
  · simp [do_svd_mode, h, do_approx_svd_mode]
  · simp [do_svd_mode, Nat.not_le_of_lt h, do_approx_svd_mode]

/-- C1 witness: concrete instance of `do_approx_svd_rank_amended`. -/
theorem do_approx_svd_rank_amended_witness :
    do_svd_mode true 0 2 = some (RangeApproxMode.RANK (RangeRank.new 20 5)) :=
  do_approx_svd_rank_amended true 0 2 (by decide) (Or.inl rfl)

/-- C7 counterexample: when the matrix is contiguous and the LAPACK driver
returns non-zero, `svd_f32` does not return a failure result to the caller:
it panics (the code prints a message and then `.unwrap()`s the `Err`). -/
theorem svd_error_counterexample :
    svd_f32_model true (Except.error 1 : Except ℤ Unit) = SvdOutcome.panicked ∧
    ∀ msg : String,
      svd_f32_model true (Except.error 1 : Except ℤ Unit) ≠ SvdOutcome.err msg := by
  refine ⟨rfl, ?_⟩
  intro msg h
  simp [svd_f32_model] at h

/-- C7 (amended): both `svd_f32` and `SvdApprox::direct_svd` return a failure
result when the input matrix cannot be made contiguous in row-major layout
(and `direct_svd` when the range approximation fails); but a non-zero LAPACK
return causes a panic via `.unwrap()`, not an error return. -/
theorem svd_error_amended (α β : Type) (l : Except ℤ α) (e : ℤ) (q : β)
    (c : Bool) :
    svd_f32_model false l = SvdOutcome.err "not contiguous or not in standard order" ∧
    svd_f32_model true (Except.error e : Except ℤ α) = SvdOutcome.panicked ∧
    direct_svd_model (none : Option β) c l = SvdOutcome.err "range approximation failed" ∧
    direct_svd_model (some q) false l = SvdOutcome.err "not contiguous or not in standard order" ∧
    direct_svd_model (some q) true (Except.error e : Except ℤ α) = SvdOutcome.panicked := by
  refine ⟨rfl, rfl, ?_, rfl, rfl⟩
  cases c <;> rfl

/-- C9: the range finder is deterministic in both modes: the output of
`RangeApprox::approximate` — the adaptive EPSIL finder
(`adaptative_range_finder_matrep`) as well as the fixed-rank subspace
iteration — is, for every input matrix and parameters, independent of any
ambient generator state, because each invocation builds its own generator
from the fixed seed `4664397` (`RandomGaussianGenerator::new`,
`RandomGaussianMatrix::new`); consequently two runs of the embedding
pipeline on identical inputs produce identical embeddings. -/
theorem range_finder_determinism (sample : ℕ → ℕ → ℝ) (qr : Mat → ℕ → ℕ → ℝ)
    (fullSvd smallSvd : Mat → SvdResultR) (mat : Mat) (is_csr : Bool)
    (mode : RangeApproxMode) (np : NodeParams) (alfa : ℝ) (asked_dim : ℕ)
    (t_opt : Option ℝ) (idx : ℕ → ℕ) (rng₁ rng₂ : XoshiroState) :
    approximateWithRng sample qr rng₁ mat is_csr mode =
      approximateWithRng sample qr rng₂ mat is_csr mode ∧
    embeddingRun sample qr fullSvd smallSvd rng₁ np alfa asked_dim t_opt idx =
      embeddingRun sample qr fullSvd smallSvd rng₂ np alfa asked_dim t_opt idx ∧
    gaussianGeneratorNew.rng.seed = 4664397 ∧
    newGaussianGenerator.seed = 4664397 := by
  refine ⟨?_, ?_, ?_, ?_⟩
  · cases mode with
    | EPSIL p => rfl
    | RANK rr => rfl
  · rfl
  · rfl
  · rfl

/-- C10: `subspace_iteration` on an `m×n` matrix returns a matrix with `m`
rows and exactly `min(rank, min(m, n))` columns: a requested rank exceeding
`min(m, n)` is silently reduced. -/
theorem subspace_iteration_shape (sample : ℕ → ℕ → ℝ) (qr : Mat → ℕ → ℕ → ℝ)
    (mat : Mat) (rank nbiter : ℕ) :
    (subspaceIteration sample qr mat rank nbiter).rows = mat.rows ∧
    (subspaceIteration sample qr mat rank nbiter).cols =
      min rank (min mat.rows mat.cols) := by
  have key : ∀ (k : ℕ) (y : Mat), y.rows = mat.rows →
      y.cols = min (min mat.rows mat.cols) rank →
      ((fun y => doQrM qr (matMulM mat (doQrM qr (matMulM (transposeM mat) y))))^[k] y).rows
          = mat.rows ∧
      ((fun y => doQrM qr (matMulM mat (doQrM qr (matMulM (transposeM mat) y))))^[k] y).cols
          = min (min mat.rows mat.cols) rank := by
    intro k
    induction k with
    | zero =>
      intro y h1 h2
      rw [Function.iterate_zero_apply]
      exact ⟨h1, h2⟩
    | succ k ih =>
      intro y h1 h2
      rw [Function.iterate_succ_apply]
      exact ih _ rfl h2
  have h := key (nbiter - 1)
    (doQrM qr (matMulM mat (generateMatrix sample newGaussianGenerator mat.cols
      (min (min mat.rows mat.cols) rank)))) rfl rfl
  refine ⟨h.1, ?_⟩
  rw [show (subspaceIteration sample qr mat rank nbiter).cols =
      ((fun y => doQrM qr (matMulM mat (doQrM qr (matMulM (transposeM mat) y))))^[nbiter - 1]
        (doQrM qr (matMulM mat (generateMatrix sample newGaussianGenerator mat.cols
          (min (min mat.rows mat.cols) rank))))).cols from rfl, h.2, Nat.min_comm]

/-- C2 counterexample: on the two-node all-ones kernel with unit scales and
`alfa = 0`, the dense path stores `2` at entry `(0,0)` while
`(D^{-1/2}·K·D^{-1/2})[0,0] = 1/2`: the `do_scale = true` division by the
normalised local scales makes `sym_laplacian` differ from
`D^{-1/2}·K·D^{-1/2}`. -/
theorem compute_laplacian_counterexample :
    lapSym np2 0 0 0 ≠
      reweighted np2 0 0 0 /
        (Real.sqrt (denseDegrees np2 0 0) * Real.sqrt (denseDegrees np2 0 0)) := by
  have hT : ∀ i j : ℕ, i < 2 → j < 2 → transitionProba np2 i j = 1 := by
    intro i j hi hj
    interval_cases i <;> interval_cases j <;>
      simp [transitionProba, getNodeParam, np2, edgeWeight]
  have hS00 : symGraph np2 0 0 = 1 := by
    rw [symGraph, hT 0 0 (by norm_num) (by norm_num)]
    norm_num
  have hS01 : symGraph np2 0 1 = 1 := by
    rw [symGraph, hT 0 1 (by norm_num) (by norm_num), hT 1 0 (by norm_num) (by norm_num)]
    norm_num
  have hn : nbNodes np2 = 2 := rfl
  have hrw00 : reweighted np2 0 0 0 = 1 := by
    rw [reweighted, Real.rpow_zero, div_one, hS00]
  have hrw01 : reweighted np2 0 0 1 = 1 := by
    rw [reweighted, Real.rpow_zero, div_one, hS01]
  have hD0 : denseDegrees np2 0 0 = 2 := by
    rw [denseDegrees, hn, Finset.sum_range_succ, Finset.sum_range_one, hrw00, hrw01]
    norm_num
  have hsqrt4 : Real.sqrt (denseDegrees np2 0 0 * denseDegrees np2 0 0) = 2 := by
    rw [hD0, show (2 : ℝ) * 2 = 2 ^ 2 by norm_num,
      Real.sqrt_sq (by norm_num : (0 : ℝ) ≤ 2)]
  have hls : localScaleN np2 0 = 1 / 2 := by
    rw [localScaleN, sumScales]
    norm_num [np2, getNodeParam]
  have hL : lapSym np2 0 0 0 = 2 := by
    rw [lapSym, if_pos (by rw [hn]; norm_num [FULL_MAT_REPR])]
    rw [denseLap, denseNormalized, hsqrt4, hrw00, hls]
    norm_num
  have hR : reweighted np2 0 0 0 /
      (Real.sqrt (denseDegrees np2 0 0) * Real.sqrt (denseDegrees np2 0 0)) = 1 / 2 := by
    rw [hrw00, hD0, Real.mul_self_sqrt (by norm_num : (0 : ℝ) ≤ 2)]
  rw [hL, hR]
  norm_num

/-- C2 (amended): for every `NodeParams` and `alfa ∈ [0,1]`, the
`GraphLaplacian` returned by `compute_laplacian` has `sym_laplacian`
symmetric; on the dense path it equals `D^{-1/2}·K·D^{-1/2}` *further divided
entrywise by the product of sum-normalised local scales* (`do_scale = true`);
on the sparse path it equals `D^{-1/2}·K·D^{-1/2}` with `K` the assembled
(duplicate-summed) α-reweighted kernel; and `degrees[i]` is the row-sum of
the α-reweighted kernel before the `D^{-1/2}` normalisation. -/
theorem compute_laplacian_amended (np : NodeParams) (alfa : ℝ)
    (h0 : 0 ≤ alfa) (h1 : alfa ≤ 1) :
    (∀ i j, lapSym np alfa i j = lapSym np alfa j i) ∧
    (nbNodes np ≤ FULL_MAT_REPR →
      (∀ i < nbNodes np, 0 ≤ denseDegrees np alfa i) →
      ∀ i < nbNodes np, ∀ j < nbNodes np,
        lapSym np alfa i j = reweighted np alfa i j /
          (Real.sqrt (denseDegrees np alfa i) * Real.sqrt (denseDegrees np alfa j)) /
          (localScaleN np i * localScaleN np j)) ∧
    (FULL_MAT_REPR < nbNodes np →
      (∀ a, 0 ≤ sparseDegrees np alfa a) →
      ∀ a b, lapSym np alfa a b = alphaKernel (edgeList np) alfa a b /
        (Real.sqrt (sparseDegrees np alfa a) * Real.sqrt (sparseDegrees np alfa b))) ∧
    (nbNodes np ≤ FULL_MAT_REPR → ∀ i,
      lapDegrees np alfa i =
        ∑ j ∈ Finset.range (nbNodes np), reweighted np alfa i j) ∧
    (FULL_MAT_REPR < nbNodes np → ∀ a,
      lapDegrees np alfa a = rowSumTriplets (triplets2 (edgeList np) alfa) a) := by
  refine ⟨?_, ?_, ?_, ?_, ?_⟩
  · intro i j
    unfold lapSym
    by_cases h : nbNodes np ≤ FULL_MAT_REPR
    · rw [if_pos h, if_pos h]
      exact denseLap_symm np alfa i j
    · rw [if_neg h, if_neg h]
      exact sparseLap_symm np alfa i j
  · intro h hD i hi j hj
    rw [lapSym, if_pos h, denseLap, denseNormalized, Real.sqrt_mul (hD i hi)]
  · intro h hD a b
    rw [lapSym, if_neg (not_le.mpr h), sparseLap, sparseLapEl_eq]
    have hDa : 0 ≤ diagTwo (edgeList np) alfa a := hD a
    unfold sparseDegrees
    rw [Real.sqrt_mul hDa]
  · intro h i
    rw [lapDegrees, if_pos h]
    rfl
  · intro h a
    rw [lapDegrees, if_neg (not_le.mpr h)]
    rfl

/-- C2 witness: instance of `compute_laplacian_amended` on the one-node
kernel `np1` at `alfa = 0`, dense path, entry `(0,0)`. -/
theorem compute_laplacian_amended_witness :
    lapSym np1 0 0 0 =
      reweighted np1 0 0 0 /
        (Real.sqrt (denseDegrees np1 0 0) * Real.sqrt (denseDegrees np1 0 0)) /
        (localScaleN np1 0 * localScaleN np1 0) := by
  have hD0 : denseDegrees np1 0 0 = 1 := by
    rw [denseDegrees, show nbNodes np1 = 1 from rfl, Finset.sum_range_one,
      reweighted, Real.rpow_zero, div_one, symGraph]
    norm_num [transitionProba, getNodeParam, np1, edgeWeight]
  have hD : ∀ i < nbNodes np1, 0 ≤ denseDegrees np1 0 i := by
    intro i hi
    rw [show nbNodes np1 = 1 from rfl] at hi
    interval_cases i
    rw [hD0]
    norm_num
  exact (compute_laplacian_amended np1 0 le_rfl zero_le_one).2.1
    (by rw [show nbNodes np1 = 1 from rfl]; norm_num [FULL_MAT_REPR]) hD
    0 (by rw [show nbNodes np1 = 1 from rfl]; norm_num)
    0 (by rw [show nbNodes np1 = 1 from rfl]; norm_num)

lemma edgeList_npBig : edgeList npBig = [((0, 1), (1 : ℝ)), ((1, 0), 3)] := by
  have hlen : npBig.params.length = 5001 := by
    rw [show npBig.params =
        ⟨1, [(1, 1)]⟩ :: ⟨1, [(0, 3)]⟩ :: List.replicate 4999 ⟨1, []⟩ from rfl,
      List.length_cons, List.length_cons, List.length_replicate]
  unfold edgeList
  rw [hlen, show (5001 : ℕ) = 2 + 4999 from rfl, List.range_add,
    List.flatMap_append]
  have h2 : (List.range 2).flatMap
      (fun i => (getNodeParam npBig i).edges.map (fun e => ((i, e.1), e.2))) =
      [((0, 1), (1 : ℝ)), ((1, 0), 3)] := rfl
  have h3 : ((List.range 4999).map (2 + ·)).flatMap
      (fun i => (getNodeParam npBig i).edges.map (fun e => ((i, e.1), e.2))) = [] := by
    rw [List.flatMap_eq_nil_iff]
    intro x hx
    obtain ⟨i, hi, rfl⟩ := List.mem_map.mp hx
    have hedges : (getNodeParam npBig (2 + i)).edges = [] := by
      have h4 : getNodeParam npBig (2 + i) =
          (List.replicate 4999 (⟨1, []⟩ : NodeParam)).getD i defaultNodeParam := by
        rw [show 2 + i = i + 1 + 1 from by omega]
        rfl
      rw [h4, List.getD_eq_getElem?_getD, List.getElem?_replicate]
      by_cases hi' : i < 4999 <;> simp [hi', defaultNodeParam]
    rw [hedges, List.map_nil]
  rw [h2, h3, List.append_nil]

/-- C3 counterexample: on `npBig` the sparse path is taken
(`5001 > FULL_MAT_REPR`), the directed kernel has `T[0,1] = 1` and
`T[1,0] = 3`, yet the assembled symmetrised kernel stores
`K[0,1] = 6 = 2·max(1,3)` — each hash-map entry of a doubly-connected pair
pushes both triplet orientations and `to_csr` sums the duplicates — not
`max(1, 3) = 3` as claimed. -/
theorem symmetrisation_counterexample :
    FULL_MAT_REPR < nbNodes npBig ∧
    (edgeList npBig).lookup (0, 1) = some 1 ∧
    (edgeList npBig).lookup (1, 0) = some 3 ∧
    sparseKernel (edgeList npBig) 0 1 ≠ max 1 3 := by
  have hel := edgeList_npBig
  refine ⟨?_, ?_, ?_, ?_⟩
  · rw [show nbNodes npBig = 5001 from by
      rw [show nbNodes npBig = npBig.params.length from rfl,
        show npBig.params =
          ⟨1, [(1, 1)]⟩ :: ⟨1, [(0, 3)]⟩ :: List.replicate 4999 ⟨1, []⟩ from rfl,
        List.length_cons, List.length_cons, List.length_replicate]]
    norm_num [FULL_MAT_REPR]
  · rw [hel]
    rfl
  · rw [hel]
    rfl
  · rw [hel]
    have h : sparseKernel [((0, 1), (1 : ℝ)), ((1, 0), 3)] 0 1 = 2 * max 1 3 := by
      have hchar := sparseKernel_char [((0, 1), (1 : ℝ)), ((1, 0), 3)] (by decide) 0 1
      rw [show ([((0, 1), (1 : ℝ)), ((1, 0), 3)]).lookup (0, 1) = some 1 from rfl,
        show ([((0, 1), (1 : ℝ)), ((1, 0), 3)]).lookup (1, 0) = some 3 from rfl] at hchar
      exact hchar
    rw [h, show max (1 : ℝ) 3 = 3 from max_eq_right (by norm_num)]
    norm_num

/-- C3 (amended): the dense path symmetrises as `K = (T + Tᵀ)/2`.  On the
sparse path, for pairwise-distinct hash-map keys, the assembled kernel entry
is `2·max(v, T[j,i])` when both directed edges exist (each entry of the pair
pushes both orientations and duplicate triplets are summed by `to_csr`),
`v` when only `(i,j)` exists, and `0` when neither does. -/
theorem symmetrisation_amended :
    (∀ (np : NodeParams) (i j : ℕ),
      symGraph np i j = (transitionProba np i j + transitionProba np j i) * 0.5) ∧
    (∀ el : List ((ℕ × ℕ) × ℝ), (el.map Prod.fst).Nodup → ∀ a b : ℕ,
      sparseKernel el a b =
        match el.lookup (a, b), el.lookup (b, a) with
        | some v, some w => 2 * max v w
        | some v, none => v
        | none, some w => w
        | none, none => 0) :=
  ⟨fun _ _ _ => rfl, fun el h a b => sparseKernel_char el h a b⟩

/-- C3 witness: a single directed edge `(0,1)` with no reverse edge is stored
with its own weight. -/
theorem symmetrisation_amended_witness :
    sparseKernel [((0, 1), (1 : ℝ))] 0 1 = 1 := by
  have h := symmetrisation_amended.2 [((0, 1), (1 : ℝ))] (by decide) 0 1
  rw [show ([((0, 1), (1 : ℝ))]).lookup (0, 1) = some 1 from rfl,
    show ([((0, 1), (1 : ℝ))]).lookup (1, 0) = none from rfl] at h
  exact h

/-- C4: for valid indices (`i < u.nrows`, `j < d' = min(asked_dim, u.ncols)`)
the embedding entry is
`clip((λ̃_{j+1})^t · U[i, j+1] / w_i, ±5)` with `w_i = sqrt(D[i] / Σ D)` —
column 0 of `U` is discarded via the `j + 1` offset — and every embedding
entry has absolute value at most 5. -/
theorem embedding_formula_clip (svd : SvdResultR) (degrees : ℕ → ℝ)
    (n asked_dim : ℕ) (t_opt : Option ℝ) (i j : ℕ) (hi : i < svd.nrows)
    (hj : j < realDim asked_dim svd.ncols) :
    embeddedAt svd degrees n asked_dim t_opt i j =
      clip (normalizedLambda svd (j + 1) ^ embedTime svd t_opt *
        svd.u i (j + 1) / weightI degrees n i) 5 ∧
    |embeddedAt svd degrees n asked_dim t_opt i j| ≤ 5 := by
  have he : embeddedAt svd degrees n asked_dim t_opt i j =
      embedEntry svd degrees n t_opt i j := by
    unfold embeddedAt
    rw [if_pos ⟨hi, hj⟩]
  refine ⟨he, ?_⟩
  rw [he]
  unfold embedEntry clip
  rw [abs_le]
  refine ⟨le_max_left _ _, max_le (by norm_num) (min_le_right _ _)⟩

/-- C4 witness: concrete instance of `embedding_formula_clip` on `svd0`. -/
theorem embedding_formula_clip_witness :
    embeddedAt svd0 (fun _ => 1) 1 1 (some 1) 0 0 =
      clip (normalizedLambda svd0 (0 + 1) ^ embedTime svd0 (some 1) *
        svd0.u 0 (0 + 1) / weightI (fun _ => 1) 1 0) 5 ∧
    |embeddedAt svd0 (fun _ => 1) 1 1 (some 1) 0 0| ≤ 5 :=
  embedding_formula_clip svd0 (fun _ => 1) 1 1 (some 1) 0 0
    (by norm_num [svd0]) (by norm_num [svd0, realDim])

/-- Last-write-wins characterisation of the reindexing loop: the value at
`(r, c)` comes from the most recent iteration that wrote `(r, c)`, and from
the initial matrix if none did. -/
lemma foldl_reindexWrite (dim : ℕ) (idx : ℕ → ℕ) (E : ℕ → ℕ → ℝ) :
    ∀ (l : List ℕ) (M0 : ℕ → ℕ → ℝ) (r c : ℕ),
      (l.foldl (reindexWrite dim idx E) M0) r c =
        match l.reverse.find? (writeHit dim idx r c) with
        | some i => E i c
        | none => M0 r c := by
  intro l
  induction l with
  | nil =>
    intro M0 r c
    rfl
  | cons a t ih =>
    intro M0 r c
    rw [List.foldl_cons, ih, List.reverse_cons, List.find?_append]
    cases hfind : t.reverse.find? (writeHit dim idx r c) with
    | some i => rfl
    | none =>
      by_cases hc : r = idx a ∧ c < dim
      · have hp : writeHit dim idx r c a = true := by
          simp [writeHit, hc.1, hc.2]
        rw [List.find?_cons_of_pos _ hp]
        simp [reindexWrite, hc]
      · have hp : ¬(writeHit dim idx r c a = true) := by
          simpa [writeHit, Decidable.not_and_iff_or_not] using hc
        rw [List.find?_cons_of_neg _ hp]
        simp [reindexWrite, hc]

/-- C8: reindexing is a round-trip.  When the stored `DataId`s are pairwise
distinct and in range (the index set of the k-NN graph is a set of row
identifiers of the output), `output[idx i, :] = E[i, :]` for every internal
row `i`, and conversely every output row equals some internal row. -/
theorem reindex_round_trip (n dim : ℕ) (idx : ℕ → ℕ) (E : ℕ → ℕ → ℝ)
    (hinj : ∀ a < n, ∀ b < n, idx a = idx b → a = b)
    (hbound : ∀ i < n, idx i < n) :
    (∀ i < n, ∀ c < dim, reindexed n dim idx E (idx i) c = E i c) ∧
    (∀ r < n, ∃ i, i < n ∧ idx i = r ∧
      ∀ c < dim, reindexed n dim idx E r c = E i c) := by
  have part1 : ∀ i < n, ∀ c < dim, reindexed n dim idx E (idx i) c = E i c := by
    intro i0 hi0 c hc
    rw [reindexed, foldl_reindexWrite]
    have hex : ∃ x ∈ (List.range n).reverse, writeHit dim idx (idx i0) c x = true :=
      ⟨i0, by simp [hi0], by simp [writeHit, hc]⟩
    obtain ⟨i', hfind⟩ := Option.isSome_iff_exists.mp
      (List.find?_isSome.mpr hex)
    have hp := List.find?_some hfind
    have hmem := List.mem_of_find?_eq_some hfind
    simp only [writeHit, Bool.and_eq_true, decide_eq_true_eq] at hp
    have hi' : i' < n := by
      have := List.mem_reverse.mp hmem
      simpa using this
    have : i' = i0 := hinj i' hi' i0 hi0 hp.1.symm
    rw [hfind, this]
  refine ⟨part1, ?_⟩
  intro r hr
  have himg : (Finset.range n).image idx = Finset.range n := by
    apply Finset.eq_of_subset_of_card_le
    · intro x hx
      obtain ⟨i, hi, rfl⟩ := Finset.mem_image.mp hx
      exact Finset.mem_range.mpr (hbound i (Finset.mem_range.mp hi))
    · rw [Finset.card_image_of_injOn fun a ha b hb hab =>
        hinj a (by simpa using ha) b (by simpa using hb) hab]
  have : r ∈ (Finset.range n).image idx := by
    rw [himg]
    exact Finset.mem_range.mpr hr
  obtain ⟨i, hi, hidx⟩ := Finset.mem_image.mp this
  exact ⟨i, Finset.mem_range.mp hi, hidx, fun c hc => by
    rw [← hidx]
    exact part1 i (Finset.mem_range.mp hi) c hc⟩

/-- C8 witness: `n = 2`, `dim = 1`, `idx = (fun i => 1 - i)`: row 0 of the
internal embedding lands in output row 1. -/
theorem reindex_round_trip_witness :
    reindexed 2 1 (fun i => 1 - i) (fun i _ => (i : ℝ)) 1 0 = 0 := by
  have h := (reindex_round_trip 2 1 (fun i => 1 - i) (fun i _ => (i : ℝ))
    (by decide) (by decide)).1 0 (by norm_num) 0 (by norm_num)
  simpa using h

end Annembed
